import Mathlib

/-!
Verification of the entity classifier and event-merge engine of
`src/insights.py` (`identify_entity`, `deduplicate_events`).

Times are modelled as rationals (the source works on Python floats holding
seconds).  The normalized description (`text.lower().strip()`) is modelled as
a list of characters; substring containment (`"kw" in desc`) is list-infix
containment.  The pandas row stream is a `List Row`; `df.sort_values
('start_time')` is a sort by `start_time`; the fold with the mutable
`current_event` accumulator is the structural recursion `dedupe`, which emits
the accumulator on every push/reset and once more at the end of the loop.
-/

/-- One input row of the annotation table: `start_time`, `end_time`,
`ai_description`. -/
structure Row where
  start_time : ℚ
  end_time : ℚ
  ai_description : String
deriving DecidableEq

/-- One merged event as built by `deduplicate_events`: the dictionary
`row_data` of the source, with `entity`, `icon` and `original_count`. -/
structure Event where
  start_time : ℚ
  end_time : ℚ
  ai_description : String
  entity : String
  icon : String
  original_count : ℕ
deriving DecidableEq

/-- `text.lower().strip()` of the source, producing the character list of the
normalized description. -/
def normalize_text (text : String) : List Char :=
  (((text.toList.map Char.toLower).dropWhile Char.isWhitespace).reverse.dropWhile
    Char.isWhitespace).reverse

/-- Python's `kw in desc` substring test on the normalized description. -/
def containsKw (desc : List Char) (kw : String) : Bool :=
  decide (kw.toList <:+: desc)

/-- `identify_entity` of the source: the ordered keyword rules, first match
wins, fallback `("Unknown", "❓")`. -/
def identify_entity (description : String) : String × String :=
  let desc := normalize_text description
  if containsKw desc "black jacket" && (containsKw desc "plate" || containsKw desc "man") then
    ("Staff (Black Jacket)", "👨‍💼")
  else if containsKw desc "hoodie" && (containsKw desc "white bag" || containsKw desc "bag") then
    ("Delivery (Hoodie)", "🚚")
  else if containsKw desc "phone case" then
    ("Visitor (Phone)", "📱")
  else
    ("Unknown", "❓")

/-- The `row_data` dictionary the loop builds for each row (seed of a merged
event, `original_count = 1`). -/
def rowEvent (r : Row) : Event :=
  { start_time := r.start_time
    end_time := r.end_time
    ai_description := r.ai_description
    entity := (identify_entity r.ai_description).1
    icon := (identify_entity r.ai_description).2
    original_count := 1 }

/-- The MERGE branch of the loop: extend the open accumulator with one row. -/
def mergeInto (cur : Event) (r : Row) : Event :=
  { cur with
    end_time := max cur.end_time r.end_time
    ai_description := cur.ai_description ++ " | " ++ r.ai_description
    original_count := cur.original_count + 1 }

/-- The loop of `deduplicate_events` over the time-sorted rows, with the open
accumulator `cur` made explicit: merge when the row has the same non-Unknown
entity and `start_time - cur.end_time < t`, otherwise push `cur` and reseed. -/
def dedupe (t : ℚ) : Event → List Row → List Event
  | cur, [] => [cur]
  | cur, r :: rs =>
    if (rowEvent r).entity = cur.entity ∧ (rowEvent r).entity ≠ "Unknown" ∧
        r.start_time - cur.end_time < t then
      dedupe t (mergeInto cur r) rs
    else
      cur :: dedupe t (rowEvent r) rs

/-- `df.sort_values('start_time')`: sort the rows by ascending `start_time`. -/
def sortByStart (l : List Row) : List Row :=
  List.insertionSort (fun a b : Row => a.start_time ≤ b.start_time) l

/-- `deduplicate_events(df, time_threshold)` of the source: sort by
`start_time`, fold the rows into merged events. -/
def deduplicate_events (t : ℚ) (l : List Row) : List Event :=
  match sortByStart l with
  | [] => []
  | r :: rs => dedupe t (rowEvent r) rs

/-- The derived `Duration` column: `end_time - start_time`. -/
def duration (e : Event) : ℚ :=
  e.end_time - e.start_time

/-- Modelled from the spec: the classifier of §4.1 as an ordered rule table,
each rule a predicate over the normalized description with its
`(label, icon)`; rule 2 uses the plain `"bag"` check of the spec. -/
def specRules : List ((List Char → Bool) × (String × String)) :=
  [ (fun d => containsKw d "black jacket" && (containsKw d "plate" || containsKw d "man"),
      ("Staff (Black Jacket)", "👨‍💼")),
    (fun d => containsKw d "hoodie" && containsKw d "bag", ("Delivery (Hoodie)", "🚚")),
    (fun d => containsKw d "phone case", ("Visitor (Phone)", "📱")) ]

/-- Modelled from the spec: first rule of `specRules` whose predicate holds on
the normalized description wins; no match falls through to `(Unknown, "❓")`. -/
def specClassify (description : String) : String × String :=
  let d := normalize_text description
  match specRules.find? (fun rule => rule.1 d) with
  | some rule => rule.2
  | none => ("Unknown", "❓")

theorem whitebag_imp_bag (d : List Char) (h : containsKw d "white bag" = true) :
    containsKw d "bag" = true := by
  have hsub : ("bag".toList) <:+: ("white bag".toList) := by decide
  simp only [containsKw, decide_eq_true_eq] at h ⊢
  exact hsub.trans h

theorem dedupe_ne_nil (t : ℚ) (rs : List Row) : ∀ cur, dedupe t cur rs ≠ [] := by
  induction rs with
  | nil => intro cur; simp [dedupe]
  | cons r rs ih =>
    intro cur
    rw [dedupe]
    split
    · exact ih _
    · simp

/-- Total `original_count` mass of a list of events. -/
def sumCounts (es : List Event) : ℕ :=
  (es.map Event.original_count).sum

theorem sumCounts_cons (e : Event) (es : List Event) :
    sumCounts (e :: es) = e.original_count + sumCounts es := by
  simp [sumCounts]

theorem sumCounts_dedupe (t : ℚ) (rs : List Row) :
    ∀ cur, sumCounts (dedupe t cur rs) = cur.original_count + rs.length := by
  induction rs with
  | nil => intro cur; simp [dedupe, sumCounts]
  | cons r rs ih =>
    intro cur
    rw [dedupe]
    split
    · rw [ih]; simp [mergeInto]; omega
    · rw [sumCounts_cons, ih]; simp [rowEvent]; omega

theorem one_le_count_dedupe (t : ℚ) (rs : List Row) :
    ∀ cur, 1 ≤ cur.original_count → ∀ e ∈ dedupe t cur rs, 1 ≤ e.original_count := by
  induction rs with
  | nil => intro cur hcur e he; simp [dedupe] at he; simpa [he] using hcur
  | cons r rs ih =>
    intro cur hcur e he
    rw [dedupe] at he
    split at he
    · exact ih _ (by simp [mergeInto]) e he
    · rcases List.mem_cons.mp he with he | he
      · simpa [he] using hcur
      · exact ih _ (by simp [rowEvent]) e he

theorem start_mem_dedupe (t : ℚ) (rs : List Row) :
    ∀ cur, ∀ e ∈ dedupe t cur rs,
      e.start_time = cur.start_time ∨ ∃ r ∈ rs, e.start_time = r.start_time := by
  induction rs with
  | nil => intro cur e he; simp [dedupe] at he; simp [he]
  | cons r rs ih =>
    intro cur e he
    rw [dedupe] at he
    split at he
    · rcases ih _ e he with h | ⟨r0, hr0, h⟩
      · left; simpa [mergeInto] using h
      · right; exact ⟨r0, by simp [hr0], h⟩
    · rcases List.mem_cons.mp he with he | he
      · left; simp [he]
      · rcases ih _ e he with h | ⟨r0, hr0, h⟩
        · right; refine ⟨r, by simp, ?_⟩; simpa [rowEvent] using h
        · right; exact ⟨r0, by simp [hr0], h⟩

theorem pairwise_dedupe (t : ℚ) (rs : List Row) :
    ∀ cur, (∀ r ∈ rs, cur.start_time ≤ r.start_time) →
      List.Pairwise (fun a b : Row => a.start_time ≤ b.start_time) rs →
      List.Pairwise (fun a b : Event => a.start_time ≤ b.start_time) (dedupe t cur rs) := by
  induction rs with
  | nil => intro cur _ _; simp [dedupe]
  | cons r rs ih =>
    intro cur hall hs
    rw [dedupe]
    rcases List.pairwise_cons.mp hs with ⟨hr, hs'⟩
    split
    · refine ih _ ?_ hs'
      intro r' hr'
      simpa [mergeInto] using hall r' (by simp [hr'])
    · refine List.pairwise_cons.mpr ⟨?_, ?_⟩
      · intro e he
        rcases start_mem_dedupe t rs _ e he with h | ⟨r0, hr0, h⟩
        · rw [h]; simpa [rowEvent] using hall r (by simp)
        · rw [h]; exact hall r0 (by simp [hr0])
      · refine ih _ ?_ hs'
        intro r' hr'
        simpa [rowEvent] using hr r' hr'

instance : IsTotal Row (fun a b => a.start_time ≤ b.start_time) :=
  ⟨fun a b => le_total a.start_time b.start_time⟩

instance : IsTrans Row (fun a b => a.start_time ≤ b.start_time) :=
  ⟨fun _ _ _ h h2 => le_trans h h2⟩

theorem sortByStart_perm (l : List Row) : (sortByStart l).Perm l :=
  List.perm_insertionSort _ l

theorem sortByStart_pairwise (l : List Row) :
    List.Pairwise (fun a b : Row => a.start_time ≤ b.start_time) (sortByStart l) :=
  List.sorted_insertionSort _ l

/-- The merged event built from a group of rows: the head row's `row_data`
seed with the remaining rows folded in by the MERGE branch. -/
def eventOf (h : Row) (g : List Row) : Event :=
  g.foldl mergeInto (rowEvent h)

/-- The rows of a group: head row, then the rows merged into it, in order. -/
def blockOf (p : Row × List Row) : List Row :=
  p.1 :: p.2

/-- Entity label assigned to a row by the classifier. -/
def entityR (r : Row) : String :=
  (identify_entity r.ai_description).1

/-- Ghost version of the loop recording, for each emitted event, the group of
rows folded into it; its merge decisions are exactly those of `dedupe`. -/
def grp (t : ℚ) : Row → List Row → List Row → List (Row × List Row)
  | h, g, [] => [(h, g)]
  | h, g, r :: rs =>
    if (rowEvent r).entity = (eventOf h g).entity ∧ (rowEvent r).entity ≠ "Unknown" ∧
        r.start_time - (eventOf h g).end_time < t then
      grp t h (g ++ [r]) rs
    else
      (h, g) :: grp t r [] rs

/-- The groups of constituent rows behind `deduplicate_events t l`. -/
def groupsOf (t : ℚ) (l : List Row) : List (Row × List Row) :=
  match sortByStart l with
  | [] => []
  | r :: rs => grp t r [] rs

theorem eventOf_nil (h : Row) : eventOf h [] = rowEvent h := rfl

theorem eventOf_append (h : Row) (g : List Row) (r : Row) :
    eventOf h (g ++ [r]) = mergeInto (eventOf h g) r := by
  simp [eventOf, List.foldl_append]

theorem dedupe_eq_grp (t : ℚ) (rs : List Row) :
    ∀ h g, dedupe t (eventOf h g) rs = (grp t h g rs).map (fun p => eventOf p.1 p.2) := by
  induction rs with
  | nil => intro h g; simp [dedupe, grp]
  | cons r rs ih =>
    intro h g
    rw [dedupe, grp]
    by_cases hc : (rowEvent r).entity = (eventOf h g).entity ∧ (rowEvent r).entity ≠ "Unknown" ∧
        r.start_time - (eventOf h g).end_time < t
    · rw [if_pos hc, if_pos hc, ← eventOf_append, ih]
    · rw [if_neg hc, if_neg hc, List.map_cons]
      exact congrArg _ (ih r [])

theorem deduplicate_eq_groups (t : ℚ) (l : List Row) :
    deduplicate_events t l = (groupsOf t l).map (fun p => eventOf p.1 p.2) := by
  unfold deduplicate_events groupsOf
  cases h : sortByStart l with
  | nil => simp
  | cons r rs => exact dedupe_eq_grp t rs r []

theorem grp_flatten (t : ℚ) (rs : List Row) :
    ∀ h g, ((grp t h g rs).map blockOf).flatten = (h :: g) ++ rs := by
  induction rs with
  | nil => intro h g; simp [grp, blockOf]
  | cons r rs ih =>
    intro h g
    rw [grp]
    split
    · rw [ih]; simp
    · rw [List.map_cons, List.flatten_cons, ih r []]
      simp [blockOf]

theorem foldl_mergeInto_entity (g : List Row) :
    ∀ e : Event, (g.foldl mergeInto e).entity = e.entity := by
  induction g with
  | nil => intro e; rfl
  | cons r g ih => intro e; rw [List.foldl_cons, ih]; rfl

theorem foldl_mergeInto_icon (g : List Row) :
    ∀ e : Event, (g.foldl mergeInto e).icon = e.icon := by
  induction g with
  | nil => intro e; rfl
  | cons r g ih => intro e; rw [List.foldl_cons, ih]; rfl

theorem foldl_mergeInto_start (g : List Row) :
    ∀ e : Event, (g.foldl mergeInto e).start_time = e.start_time := by
  induction g with
  | nil => intro e; rfl
  | cons r g ih => intro e; rw [List.foldl_cons, ih]; rfl

theorem foldl_mergeInto_count (g : List Row) :
    ∀ e : Event, (g.foldl mergeInto e).original_count = e.original_count + g.length := by
  induction g with
  | nil => intro e; simp
  | cons r g ih => intro e; rw [List.foldl_cons, ih]; simp [mergeInto]; omega

theorem foldl_mergeInto_end_init (g : List Row) :
    ∀ e : Event, e.end_time ≤ (g.foldl mergeInto e).end_time := by
  induction g with
  | nil => intro e; exact le_refl _
  | cons r g ih =>
    intro e
    rw [List.foldl_cons]
    exact le_trans (le_max_left _ _) (ih (mergeInto e r))

theorem foldl_mergeInto_end_mem (g : List Row) :
    ∀ e : Event, ∀ x ∈ g, x.end_time ≤ (g.foldl mergeInto e).end_time := by
  induction g with
  | nil => intro e x hx; simp at hx
  | cons r g ih =>
    intro e x hx
    rw [List.foldl_cons]
    rcases List.mem_cons.mp hx with hx | hx
    · rw [hx]
      exact le_trans (le_max_right _ _) (foldl_mergeInto_end_init g (mergeInto e r))
    · exact ih _ x hx

theorem foldl_mergeInto_end_attained (g : List Row) :
    ∀ e : Event, (g.foldl mergeInto e).end_time = e.end_time ∨
      ∃ x ∈ g, (g.foldl mergeInto e).end_time = x.end_time := by
  induction g with
  | nil => intro e; left; rfl
  | cons r g ih =>
    intro e
    rw [List.foldl_cons]
    rcases ih (mergeInto e r) with h | ⟨x, hx, h⟩
    · rw [h]
      rcases max_choice e.end_time r.end_time with hm | hm
      · left; exact hm
      · right; exact ⟨r, by simp, hm⟩
    · right; exact ⟨x, by simp [hx], h⟩

/-- In-order join of the constituent descriptions with the `" | "` delimiter,
as the spec words it. -/
def specJoin : List String → String
  | [] => ""
  | [s] => s
  | s :: s2 :: rest => s ++ " | " ++ specJoin (s2 :: rest)

theorem specJoin_append_single (xs : List String) (x : String) (hx : xs ≠ []) :
    specJoin (xs ++ [x]) = specJoin xs ++ " | " ++ x := by
  induction xs with
  | nil => cases hx rfl
  | cons a xs ih =>
    cases xs with
    | nil => rfl
    | cons b xs2 =>
      have ih2 : specJoin (b :: (xs2 ++ [x])) = specJoin (b :: xs2) ++ " | " ++ x :=
        ih (by simp)
      have h2 : specJoin (a :: b :: xs2) = a ++ " | " ++ specJoin (b :: xs2) := rfl
      calc specJoin ((a :: b :: xs2) ++ [x])
          = a ++ " | " ++ specJoin (b :: (xs2 ++ [x])) := rfl
        _ = a ++ " | " ++ (specJoin (b :: xs2) ++ " | " ++ x) := by rw [ih2]
        _ = specJoin (a :: b :: xs2) ++ " | " ++ x := by
            rw [h2]; simp [String.append_assoc]

theorem eventOf_entity (h : Row) (g : List Row) :
    (eventOf h g).entity = entityR h := by
  rw [eventOf, foldl_mergeInto_entity]; rfl

theorem eventOf_icon (h : Row) (g : List Row) :
    (eventOf h g).icon = (identify_entity h.ai_description).2 := by
  rw [eventOf, foldl_mergeInto_icon]; rfl

theorem rowEvent_entity (r : Row) : (rowEvent r).entity = entityR r := rfl

theorem grp_entity_inv (t : ℚ) (rs : List Row) :
    ∀ h g, (∀ x ∈ blockOf (h, g), entityR x = entityR h) →
      ∀ p ∈ grp t h g rs, ∀ x ∈ blockOf p, entityR x = entityR p.1 := by
  induction rs with
  | nil =>
    intro h g hinv p hp
    simp only [grp, List.mem_singleton] at hp
    subst hp
    exact hinv
  | cons r rs ih =>
    intro h g hinv
    rw [grp]
    by_cases hc : (rowEvent r).entity = (eventOf h g).entity ∧ (rowEvent r).entity ≠ "Unknown" ∧
        r.start_time - (eventOf h g).end_time < t
    · rw [if_pos hc]
      refine ih h (g ++ [r]) ?_
      intro x hx
      rcases List.mem_cons.mp hx with hx | hx
      · rw [hx]
      · rcases List.mem_append.mp hx with hx | hx
        · exact hinv x (by simp [blockOf, hx])
        · rw [List.mem_singleton.mp hx]
          have := hc.1
          rwa [rowEvent_entity, eventOf_entity] at this
    · rw [if_neg hc]
      intro p hp
      rcases List.mem_cons.mp hp with hp | hp
      · subst hp; exact hinv
      · exact ih r [] (by simp [blockOf]) p hp

theorem grp_unknown_singleton (t : ℚ) (rs : List Row) :
    ∀ h g, (entityR h = "Unknown" → g = []) →
      ∀ p ∈ grp t h g rs, entityR p.1 = "Unknown" → p.2 = [] := by
  induction rs with
  | nil =>
    intro h g hinv p hp
    simp only [grp, List.mem_singleton] at hp
    subst hp
    exact hinv
  | cons r rs ih =>
    intro h g hinv
    rw [grp]
    by_cases hc : (rowEvent r).entity = (eventOf h g).entity ∧ (rowEvent r).entity ≠ "Unknown" ∧
        r.start_time - (eventOf h g).end_time < t
    · rw [if_pos hc]
      refine ih h (g ++ [r]) ?_
      intro hu
      have hne : (rowEvent r).entity ≠ "Unknown" := hc.2.1
      rw [hc.1, eventOf_entity, hu] at hne
      exact absurd rfl hne
    · rw [if_neg hc]
      intro p hp
      rcases List.mem_cons.mp hp with hp | hp
      · subst hp; exact hinv
      · exact ih r [] (fun _ => rfl) p hp

theorem groupsOf_flatten (t : ℚ) (l : List Row) :
    ((groupsOf t l).map blockOf).flatten = sortByStart l := by
  unfold groupsOf
  cases h : sortByStart l with
  | nil => simp
  | cons r rs => rw [grp_flatten t rs r []]; rfl

theorem mem_of_mem_blockOf (t : ℚ) (l : List Row) (p : Row × List Row) (x : Row)
    (hp : p ∈ groupsOf t l) (hx : x ∈ blockOf p) : x ∈ l := by
  have hsub : List.Sublist (blockOf p) (sortByStart l) := by
    rw [← groupsOf_flatten t l]
    exact List.sublist_flatten_of_mem (List.mem_map_of_mem blockOf hp)
  exact (sortByStart_perm l).mem_iff.mp (hsub.subset hx)

theorem blockOf_pairwise (t : ℚ) (l : List Row) (p : Row × List Row)
    (hp : p ∈ groupsOf t l) :
    List.Pairwise (fun a b : Row => a.start_time ≤ b.start_time) (blockOf p) := by
  have hsub : List.Sublist (blockOf p) (sortByStart l) := by
    rw [← groupsOf_flatten t l]
    exact List.sublist_flatten_of_mem (List.mem_map_of_mem blockOf hp)
  exact (sortByStart_pairwise l).sublist hsub

theorem groupsOf_entity_inv (t : ℚ) (l : List Row) :
    ∀ p ∈ groupsOf t l, ∀ x ∈ blockOf p, entityR x = entityR p.1 := by
  unfold groupsOf
  cases h : sortByStart l with
  | nil => simp
  | cons r rs => exact grp_entity_inv t rs r [] (by simp [blockOf])

theorem groupsOf_unknown_singleton (t : ℚ) (l : List Row) :
    ∀ p ∈ groupsOf t l, entityR p.1 = "Unknown" → p.2 = [] := by
  unfold groupsOf
  cases h : sortByStart l with
  | nil => simp
  | cons r rs => exact grp_unknown_singleton t rs r [] (fun _ => rfl)

theorem eventOf_desc (h : Row) (g : List Row) :
    (eventOf h g).ai_description = specJoin ((h :: g).map Row.ai_description) := by
  induction g using List.reverseRecOn with
  | nil => rfl
  | append_singleton g r ih =>
    rw [eventOf_append]
    show (eventOf h g).ai_description ++ " | " ++ r.ai_description = _
    rw [ih]
    have : (h :: (g ++ [r])).map Row.ai_description =
        ((h :: g).map Row.ai_description) ++ [r.ai_description] := by simp
    rw [this, specJoin_append_single _ _ (by simp)]

/-- Bool test: is this output event's entity the Unknown label. -/
def unkEvent (e : Event) : Bool :=
  e.entity == "Unknown"

/-- Bool test: is this input row classified Unknown. -/
def unkRow (r : Row) : Bool :=
  entityR r == "Unknown"

theorem countP_unknown_dedupe (t : ℚ) (rs : List Row) :
    ∀ cur, List.countP unkEvent (dedupe t cur rs) =
      (if cur.entity = "Unknown" then 1 else 0) + List.countP unkRow rs := by
  induction rs with
  | nil =>
    intro cur
    rw [dedupe]
    by_cases h : cur.entity = "Unknown" <;>
      simp [List.countP_cons, unkEvent, h]
  | cons r rs ih =>
    intro cur
    rw [dedupe]
    by_cases hc : (rowEvent r).entity = cur.entity ∧ (rowEvent r).entity ≠ "Unknown" ∧
        r.start_time - cur.end_time < t
    · rw [if_pos hc, ih]
      have h1 : (mergeInto cur r).entity = cur.entity := rfl
      have hcu : ¬ cur.entity = "Unknown" := by rw [← hc.1]; exact hc.2.1
      have hru : entityR r ≠ "Unknown" := hc.2.1
      rw [h1, List.countP_cons]
      simp [unkRow, hcu, hru]
    · rw [if_neg hc, List.countP_cons, ih (rowEvent r)]
      have hre : (rowEvent r).entity = entityR r := rfl
      by_cases h1 : cur.entity = "Unknown" <;> by_cases h2 : entityR r = "Unknown" <;>
        simp [unkEvent, unkRow, h1, h2, hre] <;> omega

theorem foldl_mergeInto_end_eq (g : List Row) :
    ∀ e : Event, (g.foldl mergeInto e).end_time =
      g.foldl (fun m x => max m x.end_time) e.end_time := by
  induction g with
  | nil => intro e; rfl
  | cons r g ih => intro e; rw [List.foldl_cons, List.foldl_cons, ih]; rfl

theorem foldl_max_init_mono (g : List Row) :
    ∀ a b : ℚ, a ≤ b →
      g.foldl (fun m x => max m x.end_time) a ≤ g.foldl (fun m x => max m x.end_time) b := by
  induction g with
  | nil => intro a b h; exact h
  | cons r g ih =>
    intro a b h
    rw [List.foldl_cons, List.foldl_cons]
    exact ih _ _ (max_le_max h (le_refl _))

theorem end_le_of_block_extend (h1 h2 : Row) (g1 g2 pre : List Row)
    (hb : blockOf (h2, g2) = pre ++ blockOf (h1, g1)) :
    (eventOf h1 g1).end_time ≤ (eventOf h2 g2).end_time := by
  simp only [blockOf] at hb
  cases pre with
  | nil =>
    simp only [List.nil_append, List.cons.injEq] at hb
    rw [hb.1, hb.2]
  | cons p ps =>
    rw [List.cons_append] at hb
    rcases List.cons.injEq .. ▸ hb with ⟨hh, hg⟩
    rw [eventOf, eventOf, foldl_mergeInto_end_eq, foldl_mergeInto_end_eq, hg, hh]
    rw [List.foldl_append, List.foldl_cons]
    exact foldl_max_init_mono g1 _ _ (le_max_right _ _)

/-- The groups `Q` are obtained from the groups `P` by gluing consecutive runs,
the first run absorbed into an earlier open group holding the extra rows
`pre`. -/
def GluesP (pre : List Row) (P Q : List (List Row)) : Prop :=
  ∃ (c : List (List Row)) (R : List (List (List Row))),
    c ≠ [] ∧ (∀ ch ∈ R, ch ≠ []) ∧ P = c ++ R.flatten ∧
    Q = (pre ++ c.flatten) :: R.map List.flatten

/-- Grouping `Q` is a coarsening of grouping `P`: every `P`-group lies inside
a single `Q`-group, consecutive runs of `P`-groups being glued. -/
def Coarsens (P Q : List (List Row)) : Prop :=
  (P = [] ∧ Q = []) ∨ GluesP [] P Q

theorem mergeOK_mono (t1 t2 : ℚ) (ht : t1 ≤ t2) (h1 h2 : Row) (g1 g2 pre : List Row)
    (hb : blockOf (h2, g2) = pre ++ blockOf (h1, g1))
    (hsame : ∀ x ∈ blockOf (h2, g2), entityR x = entityR h2) (r : Row)
    (hc : (rowEvent r).entity = (eventOf h1 g1).entity ∧ (rowEvent r).entity ≠ "Unknown" ∧
      r.start_time - (eventOf h1 g1).end_time < t1) :
    (rowEvent r).entity = (eventOf h2 g2).entity ∧ (rowEvent r).entity ≠ "Unknown" ∧
      r.start_time - (eventOf h2 g2).end_time < t2 := by
  have hent : entityR h1 = entityR h2 := hsame h1 (by rw [hb]; simp [blockOf])
  refine ⟨?_, hc.2.1, ?_⟩
  · rw [eventOf_entity, ← hent, ← eventOf_entity h1 g1]
    exact hc.1
  · have hend := end_le_of_block_extend h1 h2 g1 g2 pre hb
    have hsub : r.start_time - (eventOf h2 g2).end_time ≤
        r.start_time - (eventOf h1 g1).end_time := sub_le_sub_left hend _
    exact lt_of_le_of_lt hsub (lt_of_lt_of_le hc.2.2 ht)

theorem grp_coarsen_aux (t1 t2 : ℚ) (ht : t1 ≤ t2) (rs : List Row) :
    ∀ h1 g1 h2 g2 pre, blockOf (h2, g2) = pre ++ blockOf (h1, g1) →
      (∀ x ∈ blockOf (h2, g2), entityR x = entityR h2) →
      GluesP pre ((grp t1 h1 g1 rs).map blockOf) ((grp t2 h2 g2 rs).map blockOf) := by
  induction rs with
  | nil =>
    intro h1 g1 h2 g2 pre hb hsame
    refine ⟨[blockOf (h1, g1)], [], by simp, by simp, by simp [grp], ?_⟩
    simp [grp, hb]
  | cons r rs ih =>
    intro h1 g1 h2 g2 pre hb hsame
    have hblk : blockOf (h2, g2 ++ [r]) = pre ++ blockOf (h1, g1 ++ [r]) := by
      show h2 :: (g2 ++ [r]) = pre ++ (h1 :: (g1 ++ [r]))
      have h0 : (h2 :: g2) ++ [r] = (pre ++ (h1 :: g1)) ++ [r] := by
        rw [show (h2 :: g2 : List Row) = blockOf (h2, g2) from rfl, hb]; rfl
      simpa [List.append_assoc] using h0
    by_cases hc1 : (rowEvent r).entity = (eventOf h1 g1).entity ∧
        (rowEvent r).entity ≠ "Unknown" ∧ r.start_time - (eventOf h1 g1).end_time < t1
    · have hc2 := mergeOK_mono t1 t2 ht h1 h2 g1 g2 pre hb hsame r hc1
      rw [grp, grp, if_pos hc1, if_pos hc2]
      refine ih h1 (g1 ++ [r]) h2 (g2 ++ [r]) pre hblk ?_
      intro x hx
      rcases List.mem_cons.mp hx with hx | hx
      · rw [hx]
      · rcases List.mem_append.mp hx with hx | hx
        · exact hsame x (by simp [blockOf, hx])
        · rw [List.mem_singleton.mp hx]
          have hre := hc2.1
          rwa [rowEvent_entity, eventOf_entity] at hre
    · by_cases hc2 : (rowEvent r).entity = (eventOf h2 g2).entity ∧
          (rowEvent r).entity ≠ "Unknown" ∧ r.start_time - (eventOf h2 g2).end_time < t2
      · rw [grp, grp, if_neg hc1, if_pos hc2]
        have hbnew : blockOf (h2, g2 ++ [r]) =
            (pre ++ blockOf (h1, g1)) ++ blockOf (r, []) := by
          show h2 :: (g2 ++ [r]) = (pre ++ blockOf (h1, g1)) ++ [r]
          have h0 : (h2 :: g2) ++ [r] = (pre ++ blockOf (h1, g1)) ++ [r] := by
            rw [show (h2 :: g2 : List Row) = blockOf (h2, g2) from rfl, hb]
          simpa using h0
        have hsame2 : ∀ x ∈ blockOf (h2, g2 ++ [r]), entityR x = entityR h2 := by
          intro x hx
          rcases List.mem_cons.mp hx with hx | hx
          · rw [hx]
          · rcases List.mem_append.mp hx with hx | hx
            · exact hsame x (by simp [blockOf, hx])
            · rw [List.mem_singleton.mp hx]
              have hre := hc2.1
              rwa [rowEvent_entity, eventOf_entity] at hre
        obtain ⟨c, R, hcne, hRne, hP, hQ⟩ :=
          ih r [] h2 (g2 ++ [r]) (pre ++ blockOf (h1, g1)) hbnew hsame2
        refine ⟨blockOf (h1, g1) :: c, R, by simp, hRne, ?_, ?_⟩
        · rw [List.map_cons, hP]; rfl
        · rw [hQ]
          simp [List.append_assoc]
      · rw [grp, grp, if_neg hc1, if_neg hc2]
        obtain ⟨c, R, hcne, hRne, hP, hQ⟩ := ih r [] r [] [] (by simp) (by simp [blockOf])
        refine ⟨[blockOf (h1, g1)], c :: R, by simp, ?_, ?_, ?_⟩
        · intro ch hch
          rcases List.mem_cons.mp hch with hch | hch
          · rw [hch]; exact hcne
          · exact hRne ch hch
        · rw [List.map_cons, hP]; simp
        · rw [List.map_cons, hQ]
          simp [hb]

theorem groupsOf_coarsens (t1 t2 : ℚ) (ht : t1 ≤ t2) (l : List Row) :
    Coarsens ((groupsOf t1 l).map blockOf) ((groupsOf t2 l).map blockOf) := by
  unfold groupsOf
  cases h : sortByStart l with
  | nil => left; simp
  | cons r rs =>
    right
    exact grp_coarsen_aux t1 t2 ht rs r [] r [] [] (by simp) (by simp [blockOf])

theorem length_le_flatten_length {α : Type} (R : List (List α))
    (h : ∀ ch ∈ R, ch ≠ []) : R.length ≤ R.flatten.length := by
  induction R with
  | nil => simp
  | cons ch R ih =>
    rw [List.flatten_cons]
    simp only [List.length_cons, List.length_append]
    have h1 : 1 ≤ ch.length := List.length_pos.mpr (h ch (by simp))
    have h2 := ih (fun c hc => h c (by simp [hc]))
    omega

theorem gluesP_length (pre : List Row) (P Q : List (List Row)) (h : GluesP pre P Q) :
    Q.length ≤ P.length := by
  obtain ⟨c, R, hcne, hRne, hP, hQ⟩ := h
  rw [hP, hQ]
  simp only [List.length_cons, List.length_append, List.length_map]
  have h1 : 1 ≤ c.length := List.length_pos.mpr hcne
  have h2 := length_le_flatten_length R hRne
  omega

theorem coarsens_length (P Q : List (List Row)) (h : Coarsens P Q) :
    Q.length ≤ P.length := by
  rcases h with ⟨hP, hQ⟩ | h
  · rw [hP, hQ]
  · exact gluesP_length [] P Q h

theorem length_deduplicate_eq (t : ℚ) (l : List Row) :
    (deduplicate_events t l).length = (groupsOf t l).length := by
  rw [deduplicate_eq_groups]; simp

theorem length_groupsOf_le (t : ℚ) (l : List Row) :
    (groupsOf t l).length ≤ l.length := by
  have h2 : (groupsOf t l).length ≤ ((groupsOf t l).map blockOf).flatten.length := by
    have h3 := length_le_flatten_length ((groupsOf t l).map blockOf) ?_
    · simpa using h3
    · intro ch hch
      rcases List.mem_map.mp hch with ⟨p, _, hp⟩
      rw [← hp]; simp [blockOf]
  rw [groupsOf_flatten] at h2
  calc (groupsOf t l).length ≤ (sortByStart l).length := h2
    _ = l.length := (sortByStart_perm l).length_eq

/-- Two rows with no keyword match (classified Unknown), 2 seconds apart. -/
def sampleUnknownRows : List Row :=
  [⟨0, 10, "person walking"⟩, ⟨12, 20, "person walking"⟩]

/-- Two staff rows, gap 2 below the default threshold 5. -/
def sampleStaffRows : List Row :=
  [⟨0, 10, "man in black jacket with plate"⟩, ⟨12, 20, "man in black jacket with plate again"⟩]

/-- C1 counterexample: on a single segment with `end_time < start_time` the
merge pass raises nothing and returns a normal, non-empty output — there is
no validation anywhere in `deduplicate_events`. -/
theorem invalid_segment_returns_output :
    (⟨10, 0, "x"⟩ : Row).end_time < (⟨10, 0, "x"⟩ : Row).start_time ∧
    deduplicate_events 5 [⟨10, 0, "x"⟩] = [⟨10, 0, "x", "Unknown", "❓", 1⟩] :=
  ⟨by decide, by decide⟩

/-- C1 (amended): the merge pass never fails; it is total on every input,
including segments with `end_time < start_time`, and returns an empty output
exactly for the empty input. -/
theorem deduplicate_events_total_nonempty (t : ℚ) (l : List Row) :
    deduplicate_events t l = [] ↔ l = [] := by
  unfold deduplicate_events
  cases h : sortByStart l with
  | nil =>
    have hlen := (sortByStart_perm l).length_eq
    rw [h] at hlen
    constructor
    · intro _; exact List.length_eq_zero.mp (by simpa using hlen.symm)
    · intro _; rfl
  | cons r rs =>
    constructor
    · intro hab; exact absurd hab (dedupe_ne_nil t rs (rowEvent r))
    · intro hl
      subst hl
      simp [sortByStart, List.insertionSort] at h

/-- C2: with an open accumulator `cur`, a candidate row `r` is merged (one
event results instead of two) iff the row's entity equals the accumulator's,
that entity is not Unknown, and the gap `r.start_time - cur.end_time` is
strictly below the threshold; hence a gap equal to the threshold never merges
and a negative gap (overlap) still merges. -/
theorem merge_decision_iff (t : ℚ) (cur : Event) (r : Row) :
    (dedupe t cur [r]).length = 1 ↔
      ((rowEvent r).entity = cur.entity ∧ cur.entity ≠ "Unknown" ∧
        r.start_time - cur.end_time < t) := by
  rw [dedupe]
  by_cases hc : (rowEvent r).entity = cur.entity ∧ (rowEvent r).entity ≠ "Unknown" ∧
      r.start_time - cur.end_time < t
  · rw [if_pos hc]
    simp only [dedupe, List.length_singleton]
    exact iff_of_true trivial ⟨hc.1, hc.1 ▸ hc.2.1, hc.2.2⟩
  · rw [if_neg hc]
    simp only [dedupe, List.length_cons, List.length_singleton]
    constructor
    · intro hab; omega
    · intro ⟨h1, h2, h3⟩
      exact absurd ⟨h1, h1.symm ▸ h2, h3⟩ hc

/-- C3: on every string, the source classifier equals the spec's ordered rule
table evaluated on the normalized description, with rule 2 reading just
`"bag"`: the `("white bag" or "bag")` disjunction of the code is observably
equivalent, and the classifier is total. -/
theorem identify_entity_eq_spec (s : String) : identify_entity s = specClassify s := by
  have hbag : (containsKw (normalize_text s) "white bag" || containsKw (normalize_text s) "bag")
      = containsKw (normalize_text s) "bag" := by
    cases hw : containsKw (normalize_text s) "white bag"
    · simp
    · simp [whitebag_imp_bag _ hw]
  simp only [identify_entity, specClassify, specRules, hbag]
  cases h1 : containsKw (normalize_text s) "black jacket" <;>
    cases h2 : containsKw (normalize_text s) "plate" <;>
      cases h3 : containsKw (normalize_text s) "man" <;>
        cases h4 : containsKw (normalize_text s) "hoodie" <;>
          cases h5 : containsKw (normalize_text s) "bag" <;>
            cases h6 : containsKw (normalize_text s) "phone case" <;>
              simp [List.find?, h1, h2, h3, h4, h5, h6]

/-- C4: the partition invariant — `original_count` over the output of the
merge pass sums to the number of input segments, and every `original_count`
is at least 1. -/
theorem partition_invariant (t : ℚ) (l : List Row) :
    sumCounts (deduplicate_events t l) = l.length ∧
    ∀ e ∈ deduplicate_events t l, 1 ≤ e.original_count := by
  have hlen := (sortByStart_perm l).length_eq
  constructor
  · unfold deduplicate_events
    cases h : sortByStart l with
    | nil =>
      rw [h] at hlen
      have h0 : l.length = 0 := by simpa using hlen.symm
      simp [sumCounts, h0]
    | cons r rs =>
      rw [h] at hlen
      rw [sumCounts_dedupe]
      have hc : (rowEvent r).original_count = 1 := rfl
      rw [hc, ← hlen]
      simp
      omega
  · intro e he
    unfold deduplicate_events at he
    rcases h : sortByStart l with _ | ⟨r, rs⟩
    · rw [h] at he; simp at he
    · rw [h] at he
      exact one_le_count_dedupe t rs (rowEvent r) (by simp [rowEvent]) e he

/-- C4 witness at scenario 2: two Unknown rows, counts sum to 2 and the
first output event's count is 1. -/
theorem partition_invariant_witness :
    sumCounts (deduplicate_events 5 sampleUnknownRows) = sampleUnknownRows.length ∧
    1 ≤ (⟨0, 10, "person walking", "Unknown", "❓", 1⟩ : Event).original_count :=
  ⟨(partition_invariant 5 sampleUnknownRows).1,
   (partition_invariant 5 sampleUnknownRows).2 _ (by decide)⟩

/-- C9: output events come in non-decreasing `start_time` order, and the
empty input yields the empty output. -/
theorem output_order_invariant (t : ℚ) (l : List Row) :
    List.Pairwise (fun a b : Event => a.start_time ≤ b.start_time)
      (deduplicate_events t l) ∧
    deduplicate_events t [] = [] := by
  constructor
  · unfold deduplicate_events
    rcases h : sortByStart l with _ | ⟨r, rs⟩
    · simp
    · have hp := sortByStart_pairwise l
      rw [h] at hp
      rcases List.pairwise_cons.mp hp with ⟨hr, hs⟩
      refine pairwise_dedupe t rs (rowEvent r) ?_ hs
      intro x hx
      simpa [rowEvent] using hr x hx
  · rfl

/-- C6: Unknown isolation — every output event carrying the Unknown entity is
a singleton (`original_count = 1`) equal to the seed of one input row, and
the number of Unknown output events equals the number of Unknown-classified
input rows, so no Unknown segment ever merges with any other. -/
theorem unknown_isolation (t : ℚ) (l : List Row) :
    (∀ e ∈ deduplicate_events t l, e.entity = "Unknown" →
      e.original_count = 1 ∧ ∃ r ∈ l, e = rowEvent r) ∧
    List.countP unkEvent (deduplicate_events t l) = List.countP unkRow l := by
  constructor
  · intro e he hu
    rw [deduplicate_eq_groups] at he
    rcases List.mem_map.mp he with ⟨p, hp, hpe⟩
    have hent : entityR p.1 = "Unknown" := by
      rw [← hpe] at hu
      rwa [eventOf_entity] at hu
    have hnil := groupsOf_unknown_singleton t l p hp hent
    constructor
    · rw [← hpe, hnil]; rfl
    · refine ⟨p.1, mem_of_mem_blockOf t l p p.1 hp (by simp [blockOf]), ?_⟩
      rw [← hpe, hnil]; rfl
  · have hperm := (sortByStart_perm l).countP_eq unkRow
    rw [← hperm]
    unfold deduplicate_events
    rcases h : sortByStart l with _ | ⟨r, rs⟩
    · simp
    · rw [countP_unknown_dedupe t rs (rowEvent r), List.countP_cons]
      have hre : (rowEvent r).entity = entityR r := rfl
      by_cases h1 : entityR r = "Unknown"
      · simp [unkRow, hre, h1]
        omega
      · simp [unkRow, hre, h1]

/-- C6 witness at scenario 2: the first Unknown row's event is a singleton
stemming from one input row. -/
theorem unknown_isolation_witness :
    (⟨0, 10, "person walking", "Unknown", "❓", 1⟩ : Event).original_count = 1 ∧
    ∃ r ∈ sampleUnknownRows,
      (⟨0, 10, "person walking", "Unknown", "❓", 1⟩ : Event) = rowEvent r :=
  (unknown_isolation 5 sampleUnknownRows).1 _ (by decide) (by decide)

/-- C7: every output event on valid segments is the fold of one group of
constituent rows: `start_time` is the first constituent's (the minimum, the
group being time-sorted); `end_time` is the running max of constituent
`end_time`s, attained and non-decreasing under each merge; the description
is the in-order `" | "`-join of the constituent descriptions; entity and
icon are the first constituent's; and `Duration = end_time - start_time` is
non-negative. -/
theorem merged_event_fields (t : ℚ) (l : List Row)
    (hv : ∀ r ∈ l, r.start_time ≤ r.end_time) :
    deduplicate_events t l = (groupsOf t l).map (fun p => eventOf p.1 p.2) ∧
    ((groupsOf t l).map blockOf).flatten = sortByStart l ∧
    (∀ (e : Event) (r : Row), e.end_time ≤ (mergeInto e r).end_time) ∧
    ∀ p ∈ groupsOf t l,
      (eventOf p.1 p.2).start_time = p.1.start_time ∧
      (∀ x ∈ blockOf p, (eventOf p.1 p.2).start_time ≤ x.start_time) ∧
      (∀ x ∈ blockOf p, x.end_time ≤ (eventOf p.1 p.2).end_time) ∧
      (∃ x ∈ blockOf p, (eventOf p.1 p.2).end_time = x.end_time) ∧
      (eventOf p.1 p.2).ai_description = specJoin ((blockOf p).map Row.ai_description) ∧
      (eventOf p.1 p.2).entity = (identify_entity p.1.ai_description).1 ∧
      (eventOf p.1 p.2).icon = (identify_entity p.1.ai_description).2 ∧
      (eventOf p.1 p.2).original_count = (blockOf p).length ∧
      0 ≤ duration (eventOf p.1 p.2) := by
  refine ⟨deduplicate_eq_groups t l, groupsOf_flatten t l,
    fun e r => le_max_left _ _, ?_⟩
  intro p hp
  have hstart : (eventOf p.1 p.2).start_time = p.1.start_time := by
    rw [eventOf, foldl_mergeInto_start]; rfl
  have hinit : p.1.end_time ≤ (eventOf p.1 p.2).end_time := by
    have := foldl_mergeInto_end_init p.2 (rowEvent p.1)
    simpa [eventOf, rowEvent] using this
  refine ⟨hstart, ?_, ?_, ?_, eventOf_desc p.1 p.2, eventOf_entity p.1 p.2,
    eventOf_icon p.1 p.2, ?_, ?_⟩
  · intro x hx
    rw [hstart]
    rcases List.mem_cons.mp hx with hx | hx
    · rw [hx]
    · have hpw := blockOf_pairwise t l p hp
      exact (List.pairwise_cons.mp hpw).1 x hx
  · intro x hx
    rcases List.mem_cons.mp hx with hx | hx
    · rw [hx]; exact hinit
    · exact foldl_mergeInto_end_mem p.2 (rowEvent p.1) x hx
  · rcases foldl_mergeInto_end_attained p.2 (rowEvent p.1) with h | ⟨x, hx, h⟩
    · exact ⟨p.1, by simp [blockOf], h⟩
    · exact ⟨x, by simp [blockOf, hx], h⟩
  · show (eventOf p.1 p.2).original_count = (blockOf p).length
    rw [eventOf, foldl_mergeInto_count]
    simp [rowEvent, blockOf]
    omega
  · have hp1 : p.1.start_time ≤ p.1.end_time :=
      hv p.1 (mem_of_mem_blockOf t l p p.1 hp (by simp [blockOf]))
    rw [duration, hstart]
    have := le_trans hp1 hinit
    linarith

/-- C7 witness at scenario 1: the output of the merge pass on the two staff
rows is the map of `eventOf` over its constituent groups. -/
theorem merged_event_fields_witness :
    deduplicate_events 5 sampleStaffRows =
      (groupsOf 5 sampleStaffRows).map (fun p => eventOf p.1 p.2) :=
  (merged_event_fields 5 sampleStaffRows (by decide)).1

/-- C8: the gap test compares the candidate against the accumulator's running
`end_time` (the max so far): on this input the third segment merges into the
chain — yielding one event of count 3 with the running max end 110 — even
though its gap to the immediately preceding raw segment's `end_time`,
`10 - 2 = 8`, is at or above the threshold 5. -/
theorem gap_uses_running_end :
    deduplicate_events 5
      [⟨0, 100, "man in black jacket"⟩, ⟨1, 2, "man in black jacket"⟩,
        ⟨10, 110, "man in black jacket"⟩] =
      [⟨0, 110, "man in black jacket | man in black jacket | man in black jacket",
        "Staff (Black Jacket)", "👨‍💼", 3⟩] ∧
    (5 : ℚ) ≤ (⟨10, 110, "man in black jacket"⟩ : Row).start_time -
      (⟨1, 2, "man in black jacket"⟩ : Row).end_time := by
  constructor
  · have hent : identify_entity "man in black jacket" = ("Staff (Black Jacket)", "👨‍💼") := by
      decide
    norm_num [deduplicate_events, sortByStart, List.insertionSort, List.orderedInsert,
      dedupe, mergeInto, rowEvent, hent]
    decide
  · norm_num

/-- C10: threshold monotonicity — raising the threshold only coarsens the
grouping (each smaller-threshold group lies inside a single larger-threshold
group), so the output count with the larger threshold is no bigger, and the
output count never exceeds the input count. -/
theorem threshold_monotone (t1 t2 : ℚ) (ht : t1 ≤ t2) (l : List Row) :
    Coarsens ((groupsOf t1 l).map blockOf) ((groupsOf t2 l).map blockOf) ∧
    (deduplicate_events t2 l).length ≤ (deduplicate_events t1 l).length ∧
    (deduplicate_events t2 l).length ≤ l.length := by
  refine ⟨groupsOf_coarsens t1 t2 ht l, ?_, ?_⟩
  · have h := coarsens_length _ _ (groupsOf_coarsens t1 t2 ht l)
    simp only [List.length_map] at h
    rw [length_deduplicate_eq, length_deduplicate_eq]
    exact h
  · rw [length_deduplicate_eq]
    exact length_groupsOf_le t2 l

/-- C10 witness: with thresholds 2 and 5 on the staff rows, the larger
threshold yields at most as many events. -/
theorem threshold_monotone_witness :
    (deduplicate_events 5 sampleStaffRows).length ≤
      (deduplicate_events 2 sampleStaffRows).length :=
  (threshold_monotone 2 5 (by decide) sampleStaffRows).2.1
